import Mathlib

open List

/-!
Shallow embedding of the event-aggregation core of `src/app.py`
(a personal calendar merging user events, weekly routines and remote
ICS feeds), together with theorems settling the specification claims.

Python `datetime.date` values are modelled by the `Date` structure below;
date strings use the `YYYY-MM-DD` rendering of `strftime("%Y-%m-%d")`
and the parser models `strptime(s, "%Y-%m-%d")`.
-/

/-- A calendar date, mirroring Python's `datetime.date` (proleptic Gregorian). -/
structure Date where
  year : Nat
  month : Nat
  day : Nat
deriving DecidableEq

/-- Python date comparison `a <= b`: lexicographic on (year, month, day). -/
def dateLe (a b : Date) : Bool :=
  decide (a.year < b.year ∨ (a.year = b.year ∧
    (a.month < b.month ∨ (a.month = b.month ∧ a.day ≤ b.day))))

/-- Gregorian leap-year test, as in Python's `calendar.isleap`. -/
def isLeap (y : Nat) : Bool :=
  y % 4 == 0 && (y % 100 != 0 || y % 400 == 0)

/-- Number of days in a month, as returned by `calendar.monthrange(y, m)[1]`. -/
def monthrange (y m : Nat) : Nat :=
  if m = 2 then (if isLeap y then 29 else 28)
  else if m = 4 ∨ m = 6 ∨ m = 9 ∨ m = 11 then 30
  else 31

/-- Days in the months strictly before month `m` of year `y`. -/
def daysBeforeMonth (y m : Nat) : Nat :=
  (List.range (m - 1)).foldl (fun a i => a + monthrange y (i + 1)) 0

/-- Rata-die day number of a date (day 1 = 0001-01-01), proleptic Gregorian. -/
def rataDie (d : Date) : Nat :=
  365 * (d.year - 1) + (d.year - 1) / 4 + (d.year - 1) / 400
    + daysBeforeMonth d.year d.month + d.day - (d.year - 1) / 100

/-- Python's `date.weekday()`: 0 = Monday … 6 = Sunday. -/
def weekday (d : Date) : Nat :=
  (rataDie d + 6) % 7

/-- The decimal digit character for `n` (`n` is always a value `< 10` here). -/
def digitChar (n : Nat) : Char :=
  match n with
  | 0 => '0' | 1 => '1' | 2 => '2' | 3 => '3' | 4 => '4'
  | 5 => '5' | 6 => '6' | 7 => '7' | 8 => '8' | _ => '9'

/-- Character list of `strftime("%Y-%m-%d")`: zero-padded `YYYY-MM-DD`. -/
def dateChars (d : Date) : List Char :=
  [digitChar (d.year / 1000 % 10), digitChar (d.year / 100 % 10),
   digitChar (d.year / 10 % 10), digitChar (d.year % 10), '-',
   digitChar (d.month / 10 % 10), digitChar (d.month % 10), '-',
   digitChar (d.day / 10 % 10), digitChar (d.day % 10)]

/-- `to_date_str` from `src/app.py`: `d.strftime("%Y-%m-%d")`. -/
def to_date_str (d : Date) : String :=
  String.mk (dateChars d)

/-- Split a character list on `'-'`, as `str.split("-")` does. -/
def splitDash : List Char → List (List Char)
  | [] => [[]]
  | c :: rest =>
    match splitDash rest with
    | [] => [[]]
    | g :: gs => if c = '-' then [] :: g :: gs else (c :: g) :: gs

/-- Numeric value of a digit character. -/
def digitVal (c : Char) : Nat := c.toNat - 48

/-- Decode a nonempty all-digit character group to a number. -/
def decodeNum (cs : List Char) : Option Nat :=
  if cs ≠ [] ∧ cs.all Char.isDigit then
    some (cs.foldl (fun a c => a * 10 + digitVal c) 0)
  else none

/-- `from_date_str` from `src/app.py`: `datetime.strptime(s, "%Y-%m-%d").date()`,
returning `none` where Python raises. `%Y` requires exactly four digits
(CPython matches it with `\d\d\d\d`), `%m`/`%d` accept 1–2 digits, and the
result must be a valid date with year in 1..9999 (`datetime.MINYEAR`..`MAXYEAR`). -/
def from_date_str (s : String) : Option Date :=
  match splitDash s.data with
  | [ys, ms, ds] =>
    if ys.length = 4 ∧ ms.length ≤ 2 ∧ ds.length ≤ 2 then
      match decodeNum ys, decodeNum ms, decodeNum ds with
      | some y, some m, some d =>
        if 1 ≤ y ∧ y ≤ 9999 ∧ 1 ≤ m ∧ m ≤ 12 ∧ 1 ≤ d ∧ d ≤ monthrange y m then
          some ⟨y, m, d⟩
        else none
      | _, _, _ => none
    else none
  | _ => none

/-!
## The Occurrence data model

Occurrences are the dictionaries produced by the three sources in
`src/app.py`; `meta` is flattened into its two fields `link` and `feed`.
Fields that the code reads with `.get` (and that may be absent in
persisted JSON) are `Option`s.
-/

/-- An occurrence record, the dictionary shape shared by user events,
routine expansions and ICS feed events in `src/app.py`. -/
structure Occ where
  id : String
  title : Option String
  date : Option String
  time : Option (Nat × Nat)
  source : String
  link : Option String
  feed : Option String
  color : String
deriving DecidableEq

/-- A routine record as persisted in `routines.json` and read by
`SmartCalendarApp.expand_routines_for_month`. -/
structure Routine where
  id : String
  title : Option String
  rtype : String
  days_of_week : List Nat
  time : Option (Nat × Nat)
  start_date : Option String
  end_date : Option String
deriving DecidableEq

/-!
## RecurrenceExpander (`SmartCalendarApp.expand_routines_for_month`)

A weekly routine whose `end_date` is a nonempty string that fails to parse
makes the Python code raise out of the whole expansion
(`from_date_str(end)` at line 757 is outside the `try`), so the expansion
returns an `Option`: `none` models that uncaught exception.
-/

/-- The occurrence emitted for routine `r` on date `d`
(lines 763–771 of `src/app.py`). -/
def mkRoutineOcc (r : Routine) (d : Date) : Occ :=
  { id := "routine:" ++ r.id ++ ":" ++ to_date_str d
    title := some (r.title.getD "Rotina")
    date := some (to_date_str d)
    time := r.time
    source := "routine"
    link := none
    feed := none
    color := "routine" }

/-- The dates iterated by the expansion loop: every day of the month. -/
def datesOfMonth (y m : Nat) : List Date :=
  (List.range (monthrange y m)).map (fun i => ⟨y, m, i + 1⟩)

/-- The inclusion test of the expansion loop (lines 761–762):
weekday in `days_of_week`, on/after start, and before/at end if bounded. -/
def routineCond (dys : List Nat) (start : Date) (endD : Option Date) (d : Date) : Bool :=
  decide (weekday d ∈ dys) && dateLe start d && endD.all (fun e => dateLe d e)

/-- Resolution of `end = from_date_str(end) if end else None` (line 757):
an absent or empty (falsy) `end_date` gives no bound, an unparsable one
raises (modelled as `none`). -/
def resolveEnd (e : Option String) : Option (Option Date) :=
  match e with
  | none => some none
  | some s =>
    if s = "" then some none
    else match from_date_str s with
         | none => none
         | some d => some (some d)

/-- Expansion of a single routine for a month: the contribution of one
iteration of the `for r in self.routines` loop. Non-weekly routines and
routines with an unparsable `start_date` contribute nothing (`continue`);
`none` models the uncaught exception on a bad `end_date`. -/
def expandRoutine (r : Routine) (y m : Nat) : Option (List Occ) :=
  if r.rtype = "weekly" then
    match r.start_date with
    | none => some []
    | some ss =>
      match from_date_str ss with
      | none => some []
      | some start =>
        match resolveEnd r.end_date with
        | none => none
        | some endD =>
          some ((datesOfMonth y m).filterMap (fun d =>
            if routineCond r.days_of_week start endD d then some (mkRoutineOcc r d)
            else none))
  else some []

/-- `SmartCalendarApp.expand_routines_for_month` (lines 742–773). -/
def expand_routines_for_month (y m : Nat) : List Routine → Option (List Occ)
  | [] => some []
  | r :: rest =>
    match expandRoutine r y m with
    | none => none
    | some l =>
      match expand_routines_for_month y m rest with
      | none => none
      | some l' => some (l ++ l')

/-!
## FeedClient (`ICSClient` in `src/app.py`)

Persistence is passed explicitly: the persisted URL list is a parameter and
the updated list is returned. The network and the ICS parser are modelled
by a function `net : String → Option (List VComp)`; `net url = none`
models any per-URL failure (network error, non-success HTTP status, or an
unparsable feed body), `net url = some comps` a feed parsed into its
`vevent` components.
-/

/-- Python whitespace characters stripped by `str.strip()` (ASCII). -/
def pyIsSpace (c : Char) : Bool :=
  c = ' ' || c = '\t' || c = '\n' || c = '\r' || c = '\x0b' || c = '\x0c'

/-- `str.strip()`. -/
def pyStrip (s : String) : String :=
  String.mk (((s.data.dropWhile pyIsSpace).reverse.dropWhile pyIsSpace).reverse)

/-- `str.lower()` (ASCII letters). -/
def pyLower (s : String) : String :=
  String.mk (s.data.map Char.toLower)

/-- `s.startswith(pre)`. -/
def pyStartsWith (s pre : String) : Bool :=
  pre.data.isPrefixOf s.data

/-- `ICSClient.add_source` (lines 122–130): returns
`(ok, message, updated persisted URL list)`. -/
def add_source (persisted : List String) (url : String) :
    Bool × String × List String :=
  let u := pyStrip url
  if ¬ pyStartsWith (pyLower u) "http" then
    (false, "URL inválida", persisted)
  else if u ∈ persisted then
    (true, "Fonte ICS adicionada", persisted)
  else
    (true, "Fonte ICS adicionada", persisted ++ [u])

/-- The value of a component's `DTSTART` property, as seen by
`dt_to_local_date_time`. A timezone-aware datetime is modelled after its
`astimezone()` conversion, i.e. by its local wall-clock values, so the
`datetime` constructor covers both the aware and the naive branches. -/
inductive DtStartVal where
  | datetime (d : Date) (h : Nat) (mi : Nat)
  | dateOnly (d : Date)
  | other
deriving DecidableEq

/-- An ICS `vevent` component as exposed by the `icalendar` parser. -/
structure VComp where
  uid : Option String
  summary : Option String
  dtstart : Option DtStartVal
  url : Option String
  description : Option String
deriving DecidableEq

/-- `dt_to_local_date_time` (lines 98–110): a datetime yields its date and
`[hour, minute]`; a plain date yields no time; anything else yields
today's date and no time. -/
def dt_to_local_date_time (today : Date) : DtStartVal → Date × Option (Nat × Nat)
  | .datetime d h mi => (d, some (h, mi))
  | .dateOnly d => (d, none)
  | .other => (today, none)

/-- One candidate position of the regex `https?://\S+`: the match starting
here, if any. -/
def urlMatchAt (cs : List Char) : Option (List Char) :=
  let tryPre : List Char → Option (List Char) := fun pre =>
    if pre.isPrefixOf cs then
      let run := (cs.drop pre.length).takeWhile (fun c => ¬ pyIsSpace c)
      if run = [] then none else some (pre ++ run)
    else none
  match tryPre "https://".data with
  | some m => some m
  | none => tryPre "http://".data

/-- Leftmost match of `URL_RE = re.compile(r"https?://\S+")`. -/
def searchUrl : List Char → Option String
  | [] => none
  | c :: rest =>
    match urlMatchAt (c :: rest) with
    | some m => some (String.mk m)
    | none => searchUrl rest

/-- Link resolution from a component's `description` (lines 160–164):
a falsy (absent or empty) description gives no link, otherwise the first
`URL_RE` match if any. -/
def descLink (desc : Option String) : Option String :=
  match desc with
  | none => none
  | some s => if s = "" then none else searchUrl s.data

/-- Processing of one `vevent` component (lines 147–175) inside feed `i`
when `total` occurrences have been emitted so far this cycle: `none` when
the component lacks a `dtstart` and is skipped, otherwise the emitted
occurrence. A falsy (absent or empty) `uid` falls back to the positional
placeholder, a falsy `summary` to `"Evento"`, a falsy `url` property to
the description scan. -/
def processComp (i total : Nat) (today : Date) (feedUrl : String) (c : VComp) :
    Option Occ :=
  let uid :=
    match c.uid with
    | some u => if u = "" then "u" ++ toString i ++ "-" ++ toString total else u
    | none => "u" ++ toString i ++ "-" ++ toString total
  let summary :=
    match c.summary with
    | some s => if s = "" then "Evento" else s
    | none => "Evento"
  match c.dtstart with
  | none => none
  | some dv =>
    let dtm := dt_to_local_date_time today dv
    let link :=
      match c.url with
      | some u => if u = "" then descLink c.description else some u
      | none => descLink c.description
    some { id := "ics:" ++ toString i ++ ":" ++ uid
           title := some summary
           date := some (to_date_str dtm.1)
           time := dtm.2
           source := "ics"
           link := link
           feed := some feedUrl
           color := "ics" }

/-- One step of the inner component loop: skip or append, bumping the
running total only on append. -/
def feedStep (i : Nat) (today : Date) (feedUrl : String) (acc : List Occ × Nat)
    (c : VComp) : List Occ × Nat :=
  match processComp i acc.2 today feedUrl c with
  | none => acc
  | some o => (acc.1 ++ [o], acc.2 + 1)

/-- The inner component loop for one successfully fetched feed: occurrences
in component order, with the running total threaded through (it feeds the
placeholder uid and only counts emitted occurrences). -/
def parseFeed (i : Nat) (today : Date) (feedUrl : String) (comps : List VComp)
    (total0 : Nat) : List Occ × Nat :=
  comps.foldl (feedStep i today feedUrl) ([], total0)

/-- The `for i, url in enumerate(urls)` loop of `fetch_all` (lines 142–178):
returns the concatenated occurrences, the total count and the failure
count. A failed URL only increments `errors` and the loop continues. -/
def fetchLoop (net : String → Option (List VComp)) (today : Date) :
    List String → Nat → Nat → Nat → List Occ × Nat × Nat
  | [], _, total, errors => ([], total, errors)
  | u :: rest, i, total, errors =>
    match net u with
    | none => fetchLoop net today rest (i + 1) total (errors + 1)
    | some comps =>
      let fed := parseFeed i today u comps total
      let r := fetchLoop net today rest (i + 1) fed.2 errors
      (fed.1 ++ r.1, r.2)

/-- The snapshot published under the lock at the end of a fetch cycle:
the occurrence list and the human-readable status. -/
structure Snapshot where
  events : List Occ
  status : String
deriving DecidableEq

/-- `ICSClient.fetch_all` (lines 132–186). `urls` is the persisted source
list reloaded at the top of the call. -/
def fetch_all (urls : List String) (net : String → Option (List VComp))
    (today : Date) : Snapshot :=
  match urls with
  | [] => ⟨[], "ICS: sem fontes"⟩
  | u :: rest =>
    let r := fetchLoop net today (u :: rest) 0 0 0
    let total := r.2.1
    let errors := r.2.2
    ⟨r.1,
      if errors ≠ 0 ∧ total ≠ 0 then
        "ICS: " ++ toString total ++ " eventos, " ++ toString errors ++ " falhas"
      else if errors ≠ 0 ∧ total = 0 then
        "ICS: erro ao carregar fontes"
      else
        "ICS: " ++ toString total ++ " eventos"⟩

/-!
## Aggregator (`SmartCalendarApp.events_map_for_month`, lines 553–580)

The Python dict is modelled as an insertion-ordered association list;
`dict.setdefault(ds, []).append(e)` appends a new key at the end and
otherwise appends to the existing bucket.
-/

/-- The per-source filter of lines 555–568: keep a record only when its
`date` parses and falls in the requested year and month; a missing date
key or a parse failure is swallowed by the `try`/`except`. -/
def inMonth (year month : Nat) (e : Occ) : Bool :=
  match e.date with
  | none => false
  | some s =>
    match from_date_str s with
    | none => false
    | some d => d.year == year && d.month == month

/-- `m.setdefault(ds, []).append(e)` on the ordered dict model. -/
def setdefaultAppend (m : List (String × List Occ)) (k : String) (e : Occ) :
    List (String × List Occ) :=
  match m with
  | [] => [(k, [e])]
  | (k', l) :: rest =>
    if k' = k then (k', l ++ [e]) :: rest
    else (k', l) :: setdefaultAppend rest k e

/-- One step of the grouping loop of lines 572–576: records with a falsy
`date` (absent or empty) are skipped. -/
def groupStep (m : List (String × List Occ)) (e : Occ) :
    List (String × List Occ) :=
  match e.date with
  | none => m
  | some ds => if ds = "" then m else setdefaultAppend m ds e

/-- The grouping loop of lines 572–576. -/
def groupByDate (events : List Occ) : List (String × List Occ) :=
  events.foldl groupStep []

/-- The sort key of line 579:
`(999 if ev.get("time") is None else ev["time"][0]*60 + ev["time"][1], ev.get("title",""))`. -/
def occKey (e : Occ) : Nat × String :=
  (match e.time with
   | none => 999
   | some t => t.1 * 60 + t.2,
   e.title.getD "")

/-- Python's string comparison `s <= t`: lexicographic on Unicode code
points. -/
def strLeB : List Char → List Char → Bool
  | [], _ => true
  | _ :: _, [] => false
  | c :: cs, d :: ds =>
    if c.toNat < d.toNat then true
    else if d.toNat < c.toNat then false
    else strLeB cs ds

theorem strLeB_total : ∀ s t, strLeB s t = true ∨ strLeB t s = true := by
  intro s
  induction s with
  | nil => intro t; exact Or.inl rfl
  | cons c cs ih =>
    intro t
    cases t with
    | nil => exact Or.inr rfl
    | cons d ds =>
      by_cases h1 : c.toNat < d.toNat
      · exact Or.inl (by simp [strLeB, h1])
      · by_cases h2 : d.toNat < c.toNat
        · exact Or.inr (by simp [strLeB, h2])
        · rcases ih ds with h | h
          · exact Or.inl (by simp [strLeB, h1, h2, h])
          · exact Or.inr (by simp [strLeB, h1, h2, h])

theorem strLeB_trans :
    ∀ s t u, strLeB s t = true → strLeB t u = true → strLeB s u = true := by
  intro s
  induction s with
  | nil => intro t u _ _; rfl
  | cons c cs ih =>
    intro t u hst htu
    cases t with
    | nil => simp [strLeB] at hst
    | cons d ds =>
      cases u with
      | nil => simp [strLeB] at htu
      | cons e es =>
        simp only [strLeB] at hst htu ⊢
        by_cases hcd : c.toNat < d.toNat
        · by_cases hde : d.toNat < e.toNat
          · rw [if_pos (by omega : c.toNat < e.toNat)]
          · by_cases hed : e.toNat < d.toNat
            · rw [if_neg hde, if_pos hed] at htu
              exact absurd htu (by simp)
            · rw [if_pos (by omega : c.toNat < e.toNat)]
        · by_cases hdc : d.toNat < c.toNat
          · rw [if_pos hdc] at hst
            rw [if_neg hcd] at hst
            exact absurd hst (by simp)
          · rw [if_neg hcd, if_neg hdc] at hst
            by_cases hde : d.toNat < e.toNat
            · rw [if_pos (by omega : c.toNat < e.toNat)]
            · by_cases hed : e.toNat < d.toNat
              · rw [if_neg hde, if_pos hed] at htu
                exact absurd htu (by simp)
              · rw [if_neg hde, if_neg hed] at htu
                rw [if_neg (by omega : ¬ c.toNat < e.toNat),
                  if_neg (by omega : ¬ e.toNat < c.toNat)]
                exact ih ds es hst htu

/-- Python's ascending comparison on the sort keys (lexicographic pair
order, strings compared by code point). -/
def occLe (a b : Occ) : Bool :=
  decide ((occKey a).1 < (occKey b).1) ||
    (decide ((occKey a).1 = (occKey b).1) &&
      strLeB (occKey a).2.data (occKey b).2.data)

/-- `occLe` as a relation. -/
def occLeP (a b : Occ) : Prop :=
  occLe a b = true

instance : DecidableRel occLeP := fun a b => by
  unfold occLeP; infer_instance

theorem occLe_iff {a b : Occ} :
    occLe a b = true ↔
      ((occKey a).1 < (occKey b).1 ∨
        ((occKey a).1 = (occKey b).1 ∧
          strLeB (occKey a).2.data (occKey b).2.data = true)) := by
  unfold occLe
  simp [Bool.or_eq_true, Bool.and_eq_true]

instance : IsTotal Occ occLeP where
  total a b := by
    unfold occLeP
    rw [occLe_iff, occLe_iff]
    rcases Nat.lt_trichotomy (occKey a).1 (occKey b).1 with h | h | h
    · exact Or.inl (Or.inl h)
    · rcases strLeB_total (occKey a).2.data (occKey b).2.data with h2 | h2
      · exact Or.inl (Or.inr ⟨h, h2⟩)
      · exact Or.inr (Or.inr ⟨h.symm, h2⟩)
    · exact Or.inr (Or.inl h)

instance : IsTrans Occ occLeP where
  trans a b c := by
    unfold occLeP
    rw [occLe_iff, occLe_iff, occLe_iff]
    rintro (h1 | ⟨h1, h1'⟩) (h2 | ⟨h2, h2'⟩)
    · exact Or.inl (h1.trans h2)
    · exact Or.inl (h2 ▸ h1)
    · exact Or.inl (h1 ▸ h2)
    · exact Or.inr ⟨h1.trans h2, strLeB_trans _ _ _ h1' h2'⟩

/-- `lst.sort(key=...)` of lines 578–579. Python's `list.sort` is a stable
sort; a stable sort's output is uniquely determined by the (total,
transitive) key comparison, and `List.insertionSort` is stable, so it is
the same function on lists. -/
def sortOccs (l : List Occ) : List Occ :=
  l.insertionSort occLeP

/-- `SmartCalendarApp.events_map_for_month`: user events and cached ICS
events filtered to the month, routine expansions appended, grouped by
date string, each bucket sorted. `none` models the exception escaping
from a routine with an unparsable nonempty `end_date`. -/
def events_map_for_month (year month : Nat) (user_events ics_cache : List Occ)
    (routines : List Routine) : Option (List (String × List Occ)) :=
  match expand_routines_for_month year month routines with
  | none => none
  | some rocc =>
    let events :=
      user_events.filter (inMonth year month)
        ++ ics_cache.filter (inMonth year month)
        ++ rocc
    some ((groupByDate events).map (fun p => (p.1, sortOccs p.2)))

/-!
## Spec-side predicates and concrete data

The two `spec_*` definitions follow the specification's words (not the
code) and exist only to be compared with the code's behaviour.
-/

/-- Modelled from the spec: "validates the URL has an `http`/`https`
scheme" — the URL begins with an actual scheme, not merely the letters
`http`. -/
def spec_has_http_scheme (s : String) : Bool :=
  pyStartsWith s "http://" || pyStartsWith s "https://"

/-- Modelled from the spec: "all-day occurrences (no time) sorted *last*
within that date" — no all-day occurrence is followed by a timed one. -/
def spec_allday_last : List Occ → Bool
  | [] => true
  | o :: rest =>
    (!(decide (o.time = none)) || rest.all (fun x => decide (x.time = none)))
      && spec_allday_last rest

/-- All occurrence ids of a month index, in order. -/
def aggIds (mp : List (String × List Occ)) : List String :=
  ((mp.map Prod.snd).flatten).map Occ.id

/-- An all-day user event titled "A" on 2024-01-05. -/
def exAllDayA : Occ :=
  { id := "user:1", title := some "A", date := some "2024-01-05", time := none
    source := "user", link := none, feed := none, color := "user" }

/-- A user event titled "B" at 17:00 on 2024-01-05 (sort key 1020, larger
than the all-day sentinel 999). -/
def exTimedB : Occ :=
  { id := "user:2", title := some "B", date := some "2024-01-05"
    time := some (17, 0), source := "user", link := none, feed := none
    color := "user" }

/-- The spec's scenario routine: "Gym", Mondays at 7:00 from 2024-01-01. -/
def exGym : Routine :=
  { id := "routine:100", title := some "Gym", rtype := "weekly"
    days_of_week := [0], time := some (7, 0), start_date := some "2024-01-01"
    end_date := none }

/-- A weekly routine with plain id `"r1"` matching only 2024-01-01. -/
def exMonday : Routine :=
  { id := "r1", title := some "T", rtype := "weekly", days_of_week := [0]
    time := some (7, 0), start_date := some "2024-01-01"
    end_date := some "2024-01-01" }

/-- A feed component with uid "x", all-day on 2024-01-05. -/
def exComp : VComp :=
  { uid := some "x", summary := some "S"
    dtstart := some (.dateOnly ⟨2024, 1, 5⟩), url := none, description := none }

/-- A feed component whose `DTSTART` value is neither a datetime nor a
date. -/
def exCompOther : VComp :=
  { uid := some "y", summary := some "W", dtstart := some .other
    url := none, description := none }

/-- A network where only `http://b` answers, with a single component. -/
def exNet : String → Option (List VComp) :=
  fun u => if u = "http://b" then some [exComp] else none

/-- A network whose only feed contains two components with the same uid. -/
def exNetDup : String → Option (List VComp) :=
  fun u => if u = "http://a" then some [exComp, exComp] else none

/-- A network whose only feed contains one component with a non-date
`DTSTART`. -/
def exNetOther : String → Option (List VComp) :=
  fun u => if u = "http://a" then some [exCompOther] else none

/-- A user event record whose date string does not parse. -/
def exBadDate : Occ :=
  { id := "user:9", title := some "bad", date := some "05/01/2024", time := none
    source := "user", link := none, feed := none, color := "user" }

/-!
# Supporting lemmas
-/

theorem mem_foldl_feedStep (i : Nat) (today : Date) (u : String) :
    ∀ (comps : List VComp) (acc : List Occ × Nat) (o : Occ),
      o ∈ acc.1 → o ∈ (comps.foldl (feedStep i today u) acc).1 := by
  intro comps
  induction comps with
  | nil => intro acc o h; exact h
  | cons c cs ih =>
    intro acc o h
    refine ih (feedStep i today u acc c) o ?_
    unfold feedStep
    cases processComp i acc.2 today u c with
    | none => exact h
    | some o' => exact List.mem_append_left _ h

theorem processComp_of_dtstart (i t : Nat) (today : Date) (u : String)
    (c : VComp) (dv : DtStartVal) (h : c.dtstart = some dv) :
    ∃ o, processComp i t today u c = some o ∧
      o.date = some (to_date_str (dt_to_local_date_time today dv).1) ∧
      o.time = (dt_to_local_date_time today dv).2 ∧ o.source = "ics" := by
  unfold processComp
  rw [h]
  exact ⟨_, rfl, rfl, rfl, rfl⟩

theorem foldl_feedStep_emits (i : Nat) (today : Date) (u : String) (dv : DtStartVal) :
    ∀ (comps : List VComp) (acc : List Occ × Nat) (c : VComp),
      c ∈ comps → c.dtstart = some dv →
      ∃ o ∈ (comps.foldl (feedStep i today u) acc).1,
        o.date = some (to_date_str (dt_to_local_date_time today dv).1) ∧
        o.time = (dt_to_local_date_time today dv).2 ∧ o.source = "ics" := by
  intro comps
  induction comps with
  | nil => intro acc c h; cases h
  | cons c0 cs ih =>
    intro acc c hmem hdt
    rcases List.mem_cons.mp hmem with rfl | hmem'
    · obtain ⟨o, ho, hprops⟩ := processComp_of_dtstart i acc.2 today u c dv hdt
      refine ⟨o, ?_, hprops⟩
      have : o ∈ (feedStep i today u acc c).1 := by
        unfold feedStep
        rw [ho]
        exact List.mem_append_right _ (List.mem_singleton.mpr rfl)
      exact mem_foldl_feedStep i today u cs _ o this
    · exact ih (feedStep i today u acc c0) c hmem' hdt

theorem fetchLoop_emits (net : String → Option (List VComp)) (today : Date)
    (dv : DtStartVal) :
    ∀ (urls : List String) (i total errors : Nat) (u : String)
      (comps : List VComp) (c : VComp),
      u ∈ urls → net u = some comps → c ∈ comps → c.dtstart = some dv →
      ∃ o ∈ (fetchLoop net today urls i total errors).1,
        o.date = some (to_date_str (dt_to_local_date_time today dv).1) ∧
        o.time = (dt_to_local_date_time today dv).2 ∧ o.source = "ics" := by
  intro urls
  induction urls with
  | nil => intro i total errors u comps c hu; cases hu
  | cons v rest ih =>
    intro i total errors u comps c hu hnet hc hdt
    rcases List.mem_cons.mp hu with rfl | hu'
    · rw [show fetchLoop net today (u :: rest) i total errors =
          (match net u with
           | none => fetchLoop net today rest (i + 1) total (errors + 1)
           | some comps =>
             let fed := parseFeed i today u comps total
             let r := fetchLoop net today rest (i + 1) fed.2 errors
             (fed.1 ++ r.1, r.2)) from rfl, hnet]
      obtain ⟨o, ho, hprops⟩ :=
        foldl_feedStep_emits i today u dv comps ([], total) c hc hdt
      exact ⟨o, List.mem_append_left _ ho, hprops⟩
    · rw [show fetchLoop net today (v :: rest) i total errors =
          (match net v with
           | none => fetchLoop net today rest (i + 1) total (errors + 1)
           | some comps =>
             let fed := parseFeed i today v comps total
             let r := fetchLoop net today rest (i + 1) fed.2 errors
             (fed.1 ++ r.1, r.2)) from rfl]
      cases hv : net v with
      | none => exact ih (i + 1) total (errors + 1) u comps c hu' hnet hc hdt
      | some comps' =>
        obtain ⟨o, ho, hprops⟩ :=
          ih (i + 1) (parseFeed i today v comps' total).2 errors u comps c hu' hnet hc hdt
        exact ⟨o, List.mem_append_right _ ho, hprops⟩

theorem foldl_feedStep_snd (i : Nat) (today : Date) (u : String) :
    ∀ (comps : List VComp) (acc : List Occ × Nat),
      (comps.foldl (feedStep i today u) acc).2 + acc.1.length
        = (comps.foldl (feedStep i today u) acc).1.length + acc.2 := by
  intro comps
  induction comps with
  | nil => intro acc; simp [Nat.add_comm]
  | cons c cs ih =>
    intro acc
    have h := ih (feedStep i today u acc c)
    have hstep : (feedStep i today u acc c).2 + acc.1.length
        = (feedStep i today u acc c).1.length + acc.2 := by
      unfold feedStep
      cases hpc : processComp i acc.2 today u c with
      | none => simp [Nat.add_comm]
      | some o => simp [List.length_append]; omega
    simp only [List.foldl_cons] at *
    omega

theorem parseFeed_snd (i : Nat) (today : Date) (u : String)
    (comps : List VComp) (t0 : Nat) :
    (parseFeed i today u comps t0).2 = t0 + (parseFeed i today u comps t0).1.length := by
  have h := foldl_feedStep_snd i today u comps ([], t0)
  simp only [List.length_nil] at h
  unfold parseFeed
  omega

/-!
# Claim theorems
-/

/-- **C5.** `fetch_all` with an empty persisted source list publishes the
empty occurrence list and the "no sources" status, for every network and
every day; the function is total, so no error is raised. -/
theorem C5_fetch_all_no_sources (net : String → Option (List VComp))
    (today : Date) :
    fetch_all [] net today = ⟨[], "ICS: sem fontes"⟩ := rfl

/-- **C4 (counterexample).** `add_source` accepts the string
`"httpnotaurl"`, which has no http(s) scheme, so success is not
equivalent to the URL having an http or https scheme. -/
theorem C4_counterexample :
    (add_source [] "httpnotaurl").1 = true ∧
      spec_has_http_scheme "httpnotaurl" = false := by decide

/-- **C4 (amended).** `add_source` succeeds iff the stripped, lowercased
URL starts with the four letters `"http"` (not necessarily a scheme); on
failure it reports "URL inválida" to the caller and the persisted URL
list is unchanged. -/
theorem C4_add_source_guard (persisted : List String) (url : String) :
    ((add_source persisted url).1 = true ↔
      pyStartsWith (pyLower (pyStrip url)) "http" = true) ∧
    ((add_source persisted url).1 = false →
      (add_source persisted url).2.2 = persisted ∧
      (add_source persisted url).2.1 = "URL inválida") := by
  unfold add_source
  by_cases h : pyStartsWith (pyLower (pyStrip url)) "http" = true
  · simp only [h, not_true_eq_false, if_false]
    split <;> simp
  · simp [h]

/-- **C4 witness.** The amended statement at `persisted = []`,
`url = "not-a-url"`. -/
theorem C4_add_source_guard_witness :
    (((add_source [] "not-a-url").1 = true ↔
      pyStartsWith (pyLower (pyStrip "not-a-url")) "http" = true) ∧
    ((add_source [] "not-a-url").1 = false →
      (add_source [] "not-a-url").2.2 = ([] : List String) ∧
      (add_source [] "not-a-url").2.1 = "URL inválida")) :=
  C4_add_source_guard [] "not-a-url"

/-- **C3 (counterexample).** The routine `exMonday` has id `"r1"`; its
single expanded occurrence for January 2024 carries id
`"routine:r1:2024-01-01"`, which differs from the claim's
`routine.id + ":" + date = "r1:2024-01-01"`. -/
theorem C3_counterexample :
    (expand_routines_for_month 2024 1 [exMonday]).map (fun l => l.map Occ.id)
      = some ["routine:r1:2024-01-01"] ∧
    ¬ ("routine:r1:2024-01-01" = exMonday.id ++ ":" ++ "2024-01-01") := by
  decide

/-- **C1 (counterexample).** On a date holding an all-day occurrence
titled "A" and a 17:00 occurrence titled "B", the month index sorts the
all-day one first (sentinel key 999 < 17:00's key 1020), so all-day
occurrences are not placed last within the date. -/
theorem C1_counterexample :
    events_map_for_month 2024 1 [exAllDayA, exTimedB] [] []
      = some [("2024-01-05", [exAllDayA, exTimedB])] ∧
    exAllDayA.time = none ∧ exTimedB.time = some (17, 0) ∧
    spec_allday_last [exAllDayA, exTimedB] = false := by
  decide

/-- **C9.** A feed component whose `DTSTART` value is neither a datetime
nor a date is not skipped: `fetch_all` emits for it an occurrence dated
with the `today` parameter (the local date of the fetch) and no time, so
the emitted list depends on the day the fetch runs. -/
theorem C9_other_dtstart_dated_today (urls : List String)
    (net : String → Option (List VComp)) (today : Date) (u : String)
    (comps : List VComp) (c : VComp) (hu : u ∈ urls)
    (hnet : net u = some comps) (hc : c ∈ comps)
    (hdt : c.dtstart = some DtStartVal.other) :
    ∃ o ∈ (fetch_all urls net today).events,
      o.date = some (to_date_str today) ∧ o.time = none := by
  cases urls with
  | nil => cases hu
  | cons v rest =>
    obtain ⟨o, ho, h1, h2, _⟩ :=
      fetchLoop_emits net today .other (v :: rest) 0 0 0 u comps c hu hnet hc hdt
    exact ⟨o, ho, h1, h2⟩

/-- **C9 witness.** A concrete single-source fetch where the only
component has a non-date `DTSTART`: the occurrence is dated 2024-01-09
(the fetch day) with no time. -/
theorem C9_witness :
    ∃ o ∈ (fetch_all ["http://a"] exNetOther ⟨2024, 1, 9⟩).events,
      o.date = some (to_date_str ⟨2024, 1, 9⟩) ∧ o.time = none :=
  C9_other_dtstart_dated_today ["http://a"] exNetOther ⟨2024, 1, 9⟩
    "http://a" [exCompOther] exCompOther (by decide) (by decide) (by decide)
    (by decide)

/-- **C6.** When the first of two sources fails and the second parses,
no error propagates out of `fetch_all`: the published snapshot is exactly
the successful source's occurrences, and the status is the
partial-success format reporting 1 failure and a positive total (distinct
from the clean format `"ICS: N eventos"` and the all-failed text
`"ICS: erro ao carregar fontes"`). -/
theorem C6_partial_failure_isolated (u1 u2 : String)
    (net : String → Option (List VComp)) (today : Date) (comps : List VComp)
    (h1 : net u1 = none) (h2 : net u2 = some comps)
    (hne : (parseFeed 1 today u2 comps 0).1 ≠ []) :
    (fetch_all [u1, u2] net today).events = (parseFeed 1 today u2 comps 0).1 ∧
    (fetch_all [u1, u2] net today).status =
      "ICS: " ++ toString (parseFeed 1 today u2 comps 0).1.length
        ++ " eventos, " ++ toString (1 : Nat) ++ " falhas" ∧
    0 < (parseFeed 1 today u2 comps 0).1.length := by
  have hloop : fetchLoop net today [u1, u2] 0 0 0 =
      ((parseFeed 1 today u2 comps 0).1, (parseFeed 1 today u2 comps 0).2, 1) := by
    unfold fetchLoop
    rw [h1]
    unfold fetchLoop
    rw [h2]
    simp [fetchLoop]
  have hlen : 0 < (parseFeed 1 today u2 comps 0).1.length :=
    List.length_pos.mpr hne
  have htot : (parseFeed 1 today u2 comps 0).2
      = (parseFeed 1 today u2 comps 0).1.length := by
    have := parseFeed_snd 1 today u2 comps 0
    omega
  refine ⟨?_, ?_, hlen⟩
  · simp [fetch_all, hloop]
  · simp only [fetch_all, hloop, htot]
    rw [if_pos ⟨one_ne_zero, by omega⟩]

/-- **C6 witness.** The two-source scenario at a concrete network where
`http://a` fails and `http://b` parses into one component. -/
theorem C6_witness :
    ((fetch_all ["http://a", "http://b"] exNet ⟨2024, 1, 9⟩).events
        = (parseFeed 1 ⟨2024, 1, 9⟩ "http://b" [exComp] 0).1 ∧
      (fetch_all ["http://a", "http://b"] exNet ⟨2024, 1, 9⟩).status
        = "ICS: " ++ toString (parseFeed 1 ⟨2024, 1, 9⟩ "http://b" [exComp] 0).1.length
            ++ " eventos, " ++ toString (1 : Nat) ++ " falhas" ∧
      0 < (parseFeed 1 ⟨2024, 1, 9⟩ "http://b" [exComp] 0).1.length) :=
  C6_partial_failure_isolated "http://a" "http://b" exNet ⟨2024, 1, 9⟩ [exComp]
    (by decide) (by decide) (by decide)

/-!
## Lemmas about the date-string rendering and parser
-/

theorem digitChar_ne_dash (n : Nat) : digitChar n ≠ '-' := by
  unfold digitChar; split <;> decide

theorem digitChar_ne_colon (n : Nat) : digitChar n ≠ ':' := by
  unfold digitChar; split <;> decide

theorem digitChar_isDigit (n : Nat) : Char.isDigit (digitChar n) = true := by
  unfold digitChar; split <;> decide

theorem digitChar_inj {a b : Nat} (ha : a < 10) (hb : b < 10)
    (h : digitChar a = digitChar b) : a = b := by
  have key : ∀ a' < 10, ∀ b' < 10, digitChar a' = digitChar b' → a' = b' := by decide
  exact key a ha b hb h

theorem digitVal_digitChar {a : Nat} (ha : a < 10) :
    digitVal (digitChar a) = a := by
  have key : ∀ a' < 10, digitVal (digitChar a') = a' := by decide
  exact key a ha

theorem splitDash_cons (c : Char) (rest : List Char) :
    splitDash (c :: rest) =
      match splitDash rest with
      | [] => [[]]
      | g :: gs => if c = '-' then [] :: g :: gs else (c :: g) :: gs := rfl

theorem splitDash_ne_nil : ∀ cs : List Char, splitDash cs ≠ [] := by
  intro cs
  induction cs with
  | nil => simp [splitDash]
  | cons c rest ih =>
    rw [splitDash_cons]
    cases h : splitDash rest with
    | nil => exact absurd h ih
    | cons g gs => by_cases hc : c = '-' <;> simp [hc]

theorem splitDash_no_dash_append (g cs : List Char) (h : ∀ c ∈ g, c ≠ '-') :
    splitDash (g ++ cs) = (g ++ (splitDash cs).headI) :: (splitDash cs).tail := by
  induction g with
  | nil =>
    cases hc : splitDash cs with
    | nil => exact absurd hc (splitDash_ne_nil cs)
    | cons a as => simp [hc]
  | cons c g ih =>
    have hc : c ≠ '-' := h c (List.mem_cons_self c g)
    have hrest : ∀ c' ∈ g, c' ≠ '-' := fun c' hc' => h c' (List.mem_cons_of_mem c hc')
    rw [List.cons_append, splitDash_cons, ih hrest]
    simp [hc]

theorem splitDash_dash_cons (cs : List Char) :
    splitDash ('-' :: cs) = [] :: splitDash cs := by
  simp only [splitDash]
  cases h : splitDash cs with
  | nil => exact absurd h (splitDash_ne_nil cs)
  | cons g gs => simp

theorem splitDash_no_dash (g : List Char) (h : ∀ c ∈ g, c ≠ '-') :
    splitDash g = [g] := by
  have h2 := splitDash_no_dash_append g [] h
  simpa [splitDash] using h2

theorem splitDash_dateChars (d : Date) :
    splitDash (dateChars d) =
      [[digitChar (d.year / 1000 % 10), digitChar (d.year / 100 % 10),
        digitChar (d.year / 10 % 10), digitChar (d.year % 10)],
       [digitChar (d.month / 10 % 10), digitChar (d.month % 10)],
       [digitChar (d.day / 10 % 10), digitChar (d.day % 10)]] := by
  have hy : ∀ c ∈ [digitChar (d.year / 1000 % 10), digitChar (d.year / 100 % 10),
      digitChar (d.year / 10 % 10), digitChar (d.year % 10)], c ≠ '-' := by
    intro c hc
    simp only [List.mem_cons, List.not_mem_nil, or_false] at hc
    rcases hc with rfl | rfl | rfl | rfl <;> exact digitChar_ne_dash _
  have hm : ∀ c ∈ [digitChar (d.month / 10 % 10), digitChar (d.month % 10)], c ≠ '-' := by
    intro c hc
    simp only [List.mem_cons, List.not_mem_nil, or_false] at hc
    rcases hc with rfl | rfl <;> exact digitChar_ne_dash _
  have hd : ∀ c ∈ [digitChar (d.day / 10 % 10), digitChar (d.day % 10)], c ≠ '-' := by
    intro c hc
    simp only [List.mem_cons, List.not_mem_nil, or_false] at hc
    rcases hc with rfl | rfl <;> exact digitChar_ne_dash _
  have e1 : dateChars d =
      [digitChar (d.year / 1000 % 10), digitChar (d.year / 100 % 10),
       digitChar (d.year / 10 % 10), digitChar (d.year % 10)] ++
      '-' :: ([digitChar (d.month / 10 % 10), digitChar (d.month % 10)] ++
        '-' :: [digitChar (d.day / 10 % 10), digitChar (d.day % 10)]) := rfl
  rw [e1, splitDash_no_dash_append _ _ hy, splitDash_dash_cons,
    splitDash_no_dash_append _ _ hm, splitDash_dash_cons, splitDash_no_dash _ hd]
  simp

theorem decodeNum_two {a b : Nat} (ha : a < 10) (hb : b < 10) :
    decodeNum [digitChar a, digitChar b] = some (10 * a + b) := by
  have hcond : ([digitChar a, digitChar b] ≠ [] ∧
      List.all [digitChar a, digitChar b] Char.isDigit) := by
    simp [digitChar_isDigit]
  unfold decodeNum
  rw [if_pos hcond]
  simp only [List.foldl, digitVal_digitChar ha, digitVal_digitChar hb,
    Option.some.injEq]
  omega

theorem decodeNum_four {a b c d : Nat} (ha : a < 10) (hb : b < 10)
    (hc : c < 10) (hd : d < 10) :
    decodeNum [digitChar a, digitChar b, digitChar c, digitChar d]
      = some (1000 * a + 100 * b + 10 * c + d) := by
  have hcond : ([digitChar a, digitChar b, digitChar c, digitChar d] ≠ [] ∧
      List.all [digitChar a, digitChar b, digitChar c, digitChar d] Char.isDigit) := by
    simp [digitChar_isDigit]
  unfold decodeNum
  rw [if_pos hcond]
  simp only [List.foldl, digitVal_digitChar ha, digitVal_digitChar hb,
    digitVal_digitChar hc, digitVal_digitChar hd, Option.some.injEq]
  omega

theorem monthrange_le (y m : Nat) : monthrange y m ≤ 31 := by
  unfold monthrange
  split
  · split <;> omega
  · split <;> omega

theorem monthrange_pos (y m : Nat) : 1 ≤ monthrange y m := by
  unfold monthrange
  split
  · split <;> omega
  · split <;> omega

theorem from_to_date_str {y m d : Nat} (hy1 : 1 ≤ y) (hy2 : y ≤ 9999)
    (hm1 : 1 ≤ m) (hm2 : m ≤ 12) (hd1 : 1 ≤ d) (hd2 : d ≤ monthrange y m) :
    from_date_str (to_date_str ⟨y, m, d⟩) = some ⟨y, m, d⟩ := by
  have hdata : (to_date_str ⟨y, m, d⟩).data = dateChars ⟨y, m, d⟩ := rfl
  have e1 : decodeNum [digitChar (y / 1000 % 10), digitChar (y / 100 % 10),
      digitChar (y / 10 % 10), digitChar (y % 10)] = some y := by
    rw [decodeNum_four (Nat.mod_lt _ (by norm_num)) (Nat.mod_lt _ (by norm_num))
      (Nat.mod_lt _ (by norm_num)) (Nat.mod_lt _ (by norm_num))]
    congr 1
    omega
  have e2 : decodeNum [digitChar (m / 10 % 10), digitChar (m % 10)] = some m := by
    rw [decodeNum_two (Nat.mod_lt _ (by norm_num)) (Nat.mod_lt _ (by norm_num))]
    congr 1
    omega
  have hd99 : d ≤ 31 := le_trans hd2 (monthrange_le y m)
  have e3 : decodeNum [digitChar (d / 10 % 10), digitChar (d % 10)] = some d := by
    rw [decodeNum_two (Nat.mod_lt _ (by norm_num)) (Nat.mod_lt _ (by norm_num))]
    congr 1
    omega
  unfold from_date_str
  rw [hdata, splitDash_dateChars]
  simp only [e1, e2, e3, List.length_cons, List.length_nil]
  rw [if_pos (⟨trivial, by omega, by omega⟩ :
    True ∧ (0:Nat)+1+1 ≤ 2 ∧ (0:Nat)+1+1 ≤ 2)]
  show (if 1 ≤ y ∧ y ≤ 9999 ∧ 1 ≤ m ∧ m ≤ 12 ∧ 1 ≤ d ∧ d ≤ monthrange y m then
      some (Date.mk y m d) else none) = some ⟨y, m, d⟩
  exact if_pos ⟨hy1, hy2, hm1, hm2, hd1, hd2⟩

theorem to_date_str_inj_day {y m d1 d2 : Nat} (h1 : d1 < 100) (h2 : d2 < 100)
    (h : to_date_str ⟨y, m, d1⟩ = to_date_str ⟨y, m, d2⟩) : d1 = d2 := by
  have h' : dateChars ⟨y, m, d1⟩ = dateChars ⟨y, m, d2⟩ := congrArg String.data h
  simp only [dateChars, List.cons.injEq, and_true, true_and] at h'
  obtain ⟨h9, h10⟩ := h'
  have e9 : d1 / 10 % 10 = d2 / 10 % 10 :=
    digitChar_inj (Nat.mod_lt _ (by norm_num)) (Nat.mod_lt _ (by norm_num)) h9
  have e10 : d1 % 10 = d2 % 10 :=
    digitChar_inj (Nat.mod_lt _ (by norm_num)) (Nat.mod_lt _ (by norm_num)) h10
  omega

/-!
## Lemmas about the routine expansion
-/

theorem mem_datesOfMonth {y m : Nat} {d : Date} :
    d ∈ datesOfMonth y m ↔
      d.year = y ∧ d.month = m ∧ 1 ≤ d.day ∧ d.day ≤ monthrange y m := by
  unfold datesOfMonth
  rcases d with ⟨dy, dm, dd⟩
  simp only [List.mem_map, List.mem_range, Date.mk.injEq]
  constructor
  · rintro ⟨i, hi, rfl, rfl, rfl⟩
    omega
  · rintro ⟨rfl, rfl, hb1, hb2⟩
    exact ⟨dd - 1, by omega, rfl, rfl, by omega⟩

theorem nodup_datesOfMonth (y m : Nat) : (datesOfMonth y m).Nodup := by
  unfold datesOfMonth
  refine List.Nodup.map ?_ (List.nodup_range _)
  intro i j hij
  have := (Date.mk.injEq y m (i + 1) y m (j + 1)).mp hij
  omega

theorem routineCond_iff {dys : List Nat} {start : Date} {endD : Option Date}
    {d : Date} :
    routineCond dys start endD d = true ↔
      (weekday d ∈ dys ∧ dateLe start d = true ∧
        endD.all (fun e => dateLe d e) = true) := by
  unfold routineCond
  simp [Bool.and_eq_true, and_assoc]

theorem expandRoutine_eq (r : Routine) (y m : Nat) {ss : String} {start : Date}
    {endD : Option Date} (hw : r.rtype = "weekly") (hs : r.start_date = some ss)
    (hps : from_date_str ss = some start) (he : resolveEnd r.end_date = some endD) :
    expandRoutine r y m = some ((datesOfMonth y m).filterMap (fun d =>
      if routineCond r.days_of_week start endD d then some (mkRoutineOcc r d)
      else none)) := by
  unfold expandRoutine
  rw [if_pos hw]
  simp only [hs, hps, he]

theorem filterMap_single {α β : Type} (l : List α) (g : α → Option β) (a : α)
    (b : β) (hmem : a ∈ l) (hnd : l.Nodup) (hga : g a = some b)
    (hother : ∀ x ∈ l, x ≠ a → g x = none) :
    l.filterMap g = [b] := by
  induction l with
  | nil => cases hmem
  | cons x xs ih =>
    rcases List.mem_cons.mp hmem with rfl | hmem'
    · have hnil : xs.filterMap g = [] := by
        rw [List.filterMap_eq_nil_iff]
        intro u hu
        refine hother u (List.mem_cons_of_mem _ hu) ?_
        intro he
        exact (List.nodup_cons.mp hnd).1 (he ▸ hu)
      rw [List.filterMap_cons_some hga, hnil]
    · have hxa : x ≠ a := by
        intro he
        exact (List.nodup_cons.mp hnd).1 (he ▸ hmem')
      rw [List.filterMap_cons_none (hother x (List.mem_cons_self _ _) hxa)]
      exact ih hmem' (List.nodup_cons.mp hnd).2
        (fun u hu => hother u (List.mem_cons_of_mem _ hu))

/-- **C2.** For a weekly routine with well-formed bounds, the expansion for
month `(y, m)` contains an occurrence dated on day `day` of that month iff
that day's weekday is in `days_of_week`, the day is on/after the start
date, and the end bound (when present) is not exceeded; in particular no
qualifying date of the month is omitted. -/
theorem C2_weekly_expansion_membership (r : Routine) (y m day : Nat)
    (l : List Occ) (ss : String) (start : Date) (endD : Option Date)
    (hw : r.rtype = "weekly") (hs : r.start_date = some ss)
    (hps : from_date_str ss = some start) (he : resolveEnd r.end_date = some endD)
    (hl : expandRoutine r y m = some l)
    (hday1 : 1 ≤ day) (hday2 : day ≤ monthrange y m) :
    (∃ o ∈ l, o.date = some (to_date_str ⟨y, m, day⟩)) ↔
      (weekday ⟨y, m, day⟩ ∈ r.days_of_week ∧
        dateLe start ⟨y, m, day⟩ = true ∧
        endD.all (fun e => dateLe ⟨y, m, day⟩ e) = true) := by
  have hl2 := expandRoutine_eq r y m hw hs hps he
  rw [hl] at hl2
  obtain rfl := Option.some.inj hl2
  constructor
  · rintro ⟨o, ho, hod⟩
    obtain ⟨d', hd'mem, hd'⟩ := List.mem_filterMap.mp ho
    by_cases hcond : routineCond r.days_of_week start endD d' = true
    · rw [if_pos hcond] at hd'
      have hmk : mkRoutineOcc r d' = o := Option.some.inj hd'
      have hds : to_date_str d' = to_date_str ⟨y, m, day⟩ := by
        have : (mkRoutineOcc r d').date = some (to_date_str ⟨y, m, day⟩) := by
          rw [hmk]; exact hod
        simpa [mkRoutineOcc] using this
      obtain ⟨hy', hm', hb1, hb2⟩ := mem_datesOfMonth.mp hd'mem
      rcases d' with ⟨dy, dm, dd⟩
      simp only at hy' hm' hb2
      rw [hy', hm'] at hds hcond
      have hdd : dd = day := by
        refine to_date_str_inj_day ?_ ?_ hds
        · have := monthrange_le y m; omega
        · have := monthrange_le y m; omega
      rw [hdd] at hcond
      exact routineCond_iff.mp hcond
    · rw [if_neg hcond] at hd'
      cases hd'
  · intro hrhs
    refine ⟨mkRoutineOcc r ⟨y, m, day⟩, ?_, rfl⟩
    refine List.mem_filterMap.mpr ⟨⟨y, m, day⟩, ?_, ?_⟩
    · exact mem_datesOfMonth.mpr ⟨rfl, rfl, hday1, hday2⟩
    · rw [if_pos (routineCond_iff.mpr hrhs)]

/-- **C2 witness.** The spec's scenario routine "Gym" (Mondays from
2024-01-01) on day 1 of January 2024, which is a Monday. -/
theorem C2_witness :
    (∃ o ∈ (expandRoutine exGym 2024 1).getD [],
        o.date = some (to_date_str ⟨2024, 1, 1⟩)) ↔
      (weekday ⟨2024, 1, 1⟩ ∈ exGym.days_of_week ∧
        dateLe ⟨2024, 1, 1⟩ ⟨2024, 1, 1⟩ = true ∧
        Option.all (fun e => dateLe ⟨2024, 1, 1⟩ e) none = true) :=
  C2_weekly_expansion_membership exGym 2024 1 1
    ((expandRoutine exGym 2024 1).getD []) "2024-01-01" ⟨2024, 1, 1⟩ none
    (by decide) (by decide) (by decide) (by decide) (by decide) (by decide)
    (by decide)

/-- **C3 (amended).** For a weekly routine with well-formed bounds and an
included day, the expansion holds exactly one occurrence on that day, and
its fields are: id `"routine:" ++ r.id ++ ":" ++ date` (note the
`"routine:"` prefix the claim omits), the routine's title (defaulted to
"Rotina" when absent), that date, the routine's time, and source
`"routine"`. -/
theorem C3_unique_occurrence_fields (r : Routine) (y m day : Nat)
    (l : List Occ) (ss : String) (start : Date) (endD : Option Date)
    (hw : r.rtype = "weekly") (hs : r.start_date = some ss)
    (hps : from_date_str ss = some start) (he : resolveEnd r.end_date = some endD)
    (hl : expandRoutine r y m = some l)
    (hday1 : 1 ≤ day) (hday2 : day ≤ monthrange y m)
    (hcond : routineCond r.days_of_week start endD ⟨y, m, day⟩ = true) :
    l.filter (fun o => decide (o.date = some (to_date_str ⟨y, m, day⟩))) =
      [{ id := "routine:" ++ r.id ++ ":" ++ to_date_str ⟨y, m, day⟩
         title := some (r.title.getD "Rotina")
         date := some (to_date_str ⟨y, m, day⟩)
         time := r.time
         source := "routine"
         link := none
         feed := none
         color := "routine" }] := by
  have hl2 := expandRoutine_eq r y m hw hs hps he
  rw [hl] at hl2
  obtain rfl := Option.some.inj hl2
  rw [List.filter_filterMap]
  refine filterMap_single _ _ ⟨y, m, day⟩ _
    (mem_datesOfMonth.mpr ⟨rfl, rfl, hday1, hday2⟩) (nodup_datesOfMonth y m)
    ?_ ?_
  · rw [if_pos hcond]
    simp [Option.filter, mkRoutineOcc]
  · intro x hx hne
    by_cases hcx : routineCond r.days_of_week start endD x = true
    · rw [if_pos hcx]
      obtain ⟨hy', hm', hb1, hb2⟩ := mem_datesOfMonth.mp hx
      rcases x with ⟨xy, xm, xd⟩
      simp only at hy' hm' hb2
      rw [hy', hm']
      have hxd : xd ≠ day := by
        intro hxe
        exact hne (by rw [hy', hm', hxe])
      simp only [Option.filter, mkRoutineOcc]
      rw [if_neg]
      simp only [Option.some.injEq, decide_eq_true_eq]
      intro heq
      refine hxd (to_date_str_inj_day ?_ ?_ heq)
      · have := monthrange_le y m; omega
      · have := monthrange_le y m; omega
    · rw [if_neg hcx]
      rfl

/-- **C3 witness.** The "Gym" routine on Monday 2024-01-01. -/
theorem C3_witness :
    ((expandRoutine exGym 2024 1).getD []).filter
        (fun o => decide (o.date = some (to_date_str ⟨2024, 1, 1⟩))) =
      [{ id := "routine:" ++ exGym.id ++ ":" ++ to_date_str ⟨2024, 1, 1⟩
         title := some (exGym.title.getD "Rotina")
         date := some (to_date_str ⟨2024, 1, 1⟩)
         time := exGym.time
         source := "routine"
         link := none
         feed := none
         color := "routine" }] :=
  C3_unique_occurrence_fields exGym 2024 1 1
    ((expandRoutine exGym 2024 1).getD []) "2024-01-01" ⟨2024, 1, 1⟩ none
    (by decide) (by decide) (by decide) (by decide) (by decide) (by decide)
    (by decide) (by decide)

/-- **C1 (amended).** Every bucket of the month index is sorted ascending
by the key `(minute-of-day with 999 for all-day, title)`: timed
occurrences ascend by time with title tie-break, and all-day occurrences
sort as if timed at minute 999 (16:39) — after every timed occurrence at
or before 16:39 but before those later than 16:39, not last. -/
theorem C1_buckets_sorted (y m : Nat) (ue ics : List Occ) (rts : List Routine)
    (mp : List (String × List Occ))
    (hmp : events_map_for_month y m ue ics rts = some mp) :
    ∀ p ∈ mp, List.Pairwise occLeP p.2 := by
  cases hr : expand_routines_for_month y m rts with
  | none => simp [events_map_for_month, hr] at hmp
  | some rocc =>
    simp only [events_map_for_month, hr, Option.some.injEq] at hmp
    subst hmp
    intro p hp
    obtain ⟨q, _, rfl⟩ := List.mem_map.mp hp
    exact List.sorted_insertionSort occLeP q.2

/-- **C1 witness.** The amended statement at the two-event date of the
counterexample: the bucket `[all-day "A", "B" at 17:00]` is sorted for
the sentinel key (999 ≤ 1020). -/
theorem C1_witness : List.Pairwise occLeP [exAllDayA, exTimedB] :=
  C1_buckets_sorted 2024 1 [exAllDayA, exTimedB] [] []
    [("2024-01-05", [exAllDayA, exTimedB])] (by decide)
    ("2024-01-05", [exAllDayA, exTimedB]) (by decide)

/-!
## Lemmas about the grouping dict
-/

theorem setdefaultAppend_inv (P : Occ → Prop) (m : List (String × List Occ))
    (k : String) (e : Occ)
    (hm : ∀ p ∈ m, p.2 ≠ [] ∧ ∀ o ∈ p.2, o.date = some p.1 ∧ P o)
    (he : e.date = some k) (hPe : P e) :
    ∀ p ∈ setdefaultAppend m k e,
      p.2 ≠ [] ∧ ∀ o ∈ p.2, o.date = some p.1 ∧ P o := by
  induction m with
  | nil =>
    intro p hp
    simp only [setdefaultAppend, List.mem_singleton] at hp
    subst hp
    refine ⟨by simp, ?_⟩
    intro o ho
    simp only [List.mem_singleton] at ho
    subst ho
    exact ⟨he, hPe⟩
  | cons q rest ih =>
    rcases q with ⟨k', l⟩
    intro p hp
    unfold setdefaultAppend at hp
    by_cases hkk : k' = k
    · rw [if_pos hkk] at hp
      rcases List.mem_cons.mp hp with rfl | hp'
      · refine ⟨by simp, ?_⟩
        intro o ho
        rcases List.mem_append.mp ho with h1 | h2
        · exact (hm (k', l) (List.mem_cons_self _ _)).2 o h1
        · simp only [List.mem_singleton] at h2
          subst h2
          exact ⟨by rw [he, hkk], hPe⟩
      · exact hm p (List.mem_cons_of_mem _ hp')
    · rw [if_neg hkk] at hp
      rcases List.mem_cons.mp hp with rfl | hp'
      · exact hm _ (List.mem_cons_self _ _)
      · exact ih (fun r hr => hm r (List.mem_cons_of_mem _ hr)) p hp'

theorem groupStep_none {m : List (String × List Occ)} {e : Occ}
    (hd : e.date = none) : groupStep m e = m := by
  unfold groupStep
  simp only [hd]

theorem groupStep_empty {m : List (String × List Occ)} {e : Occ}
    (hd : e.date = some "") : groupStep m e = m := by
  unfold groupStep
  simp [hd]

theorem groupStep_some {m : List (String × List Occ)} {e : Occ} {ds : String}
    (hd : e.date = some ds) (hne : ds ≠ "") :
    groupStep m e = setdefaultAppend m ds e := by
  unfold groupStep
  simp only [hd, if_neg hne]

theorem foldl_groupStep_inv (P : Occ → Prop) :
    ∀ (es : List Occ) (m0 : List (String × List Occ)),
      (∀ p ∈ m0, p.2 ≠ [] ∧ ∀ o ∈ p.2, o.date = some p.1 ∧ P o) →
      (∀ e ∈ es, P e) →
      ∀ p ∈ es.foldl groupStep m0,
        p.2 ≠ [] ∧ ∀ o ∈ p.2, o.date = some p.1 ∧ P o := by
  intro es
  induction es with
  | nil => intro m0 hm0 _; exact hm0
  | cons e es ih =>
    intro m0 hm0 hes
    refine ih (groupStep m0 e) ?_ (fun x hx => hes x (List.mem_cons_of_mem _ hx))
    cases hd : e.date with
    | none => rw [groupStep_none hd]; exact hm0
    | some ds =>
      by_cases hds : ds = ""
      · rw [hds] at hd
        rw [groupStep_empty hd]
        exact hm0
      · rw [groupStep_some hd hds]
        exact setdefaultAppend_inv P m0 ds e hm0 hd (hes e (List.mem_cons_self _ _))

theorem groupByDate_inv (P : Occ → Prop) (es : List Occ)
    (hP : ∀ e ∈ es, P e) :
    ∀ p ∈ groupByDate es, p.2 ≠ [] ∧ ∀ o ∈ p.2, o.date = some p.1 ∧ P o :=
  foldl_groupStep_inv P es [] (by simp) hP

/-!
## Lemmas about the collected month events
-/

theorem inMonth_spec {y m : Nat} {e : Occ} (h : inMonth y m e = true) :
    ∃ s, e.date = some s ∧
      ∃ d : Date, from_date_str s = some d ∧ d.year = y ∧ d.month = m := by
  unfold inMonth at h
  cases hd : e.date with
  | none => simp only [hd] at h; exact Bool.noConfusion h
  | some s =>
    simp only [hd] at h
    cases hp : from_date_str s with
    | none => simp only [hp] at h; exact Bool.noConfusion h
    | some d =>
      simp only [hp, Bool.and_eq_true, beq_iff_eq] at h
      exact ⟨s, rfl, d, hp, h.1, h.2⟩

theorem expandRoutine_mem {r : Routine} {y m : Nat} {l : List Occ} {o : Occ}
    (hl : expandRoutine r y m = some l) (ho : o ∈ l) :
    ∃ d ∈ datesOfMonth y m, o = mkRoutineOcc r d := by
  unfold expandRoutine at hl
  by_cases hw : r.rtype = "weekly"
  · rw [if_pos hw] at hl
    cases hsd : r.start_date with
    | none =>
      simp only [hsd] at hl
      obtain rfl := Option.some.inj hl
      cases ho
    | some ss =>
      simp only [hsd] at hl
      cases hps : from_date_str ss with
      | none =>
        simp only [hps] at hl
        obtain rfl := Option.some.inj hl
        cases ho
      | some start =>
        simp only [hps] at hl
        cases hre : resolveEnd r.end_date with
        | none => simp only [hre] at hl; exact Option.noConfusion hl
        | some endD =>
          simp only [hre, Option.some.injEq] at hl
          subst hl
          obtain ⟨d, hd, hfd⟩ := List.mem_filterMap.mp ho
          by_cases hc : routineCond r.days_of_week start endD d = true
          · rw [if_pos hc] at hfd
            exact ⟨d, hd, (Option.some.inj hfd).symm⟩
          · rw [if_neg hc] at hfd
            cases hfd
  · rw [if_neg hw] at hl
    obtain rfl := Option.some.inj hl
    cases ho

theorem mem_expand_routines {y m : Nat} {rts : List Routine} {rocc : List Occ}
    {o : Occ} (hr : expand_routines_for_month y m rts = some rocc)
    (ho : o ∈ rocc) :
    ∃ r ∈ rts, ∃ d ∈ datesOfMonth y m, o = mkRoutineOcc r d := by
  induction rts generalizing rocc with
  | nil =>
    unfold expand_routines_for_month at hr
    obtain rfl := Option.some.inj hr
    cases ho
  | cons r rest ih =>
    unfold expand_routines_for_month at hr
    cases h1 : expandRoutine r y m with
    | none => simp only [h1] at hr; exact Option.noConfusion hr
    | some l =>
      simp only [h1] at hr
      cases h2 : expand_routines_for_month y m rest with
      | none => simp only [h2] at hr; exact Option.noConfusion hr
      | some l' =>
        simp only [h2, Option.some.injEq] at hr
        subst hr
        rcases List.mem_append.mp ho with hol | hol'
        · obtain ⟨d, hd, he⟩ := expandRoutine_mem h1 hol
          exact ⟨r, List.mem_cons_self _ _, d, hd, he⟩
        · obtain ⟨r', hr', d, hd, he⟩ := ih h2 hol'
          exact ⟨r', List.mem_cons_of_mem _ hr', d, hd, he⟩

theorem collected_prop (y m : Nat) (ue ics : List Occ) (rts : List Routine)
    (rocc : List Occ) (hy1 : 1 ≤ y) (hy2 : y ≤ 9999) (hm1 : 1 ≤ m)
    (hm2 : m ≤ 12) (hr : expand_routines_for_month y m rts = some rocc) :
    ∀ e ∈ ue.filter (inMonth y m) ++ ics.filter (inMonth y m) ++ rocc,
      ∃ s, e.date = some s ∧
        ∃ d : Date, from_date_str s = some d ∧ d.year = y ∧ d.month = m := by
  intro e he
  rcases List.mem_append.mp he with h12 | h3
  · rcases List.mem_append.mp h12 with h1 | h2
    · exact inMonth_spec (List.of_mem_filter h1)
    · exact inMonth_spec (List.of_mem_filter h2)
  · obtain ⟨r, _, d, hd, rfl⟩ := mem_expand_routines hr h3
    obtain ⟨hdy, hdm, hb1, hb2⟩ := mem_datesOfMonth.mp hd
    rcases d with ⟨dy, dm, dd⟩
    simp only at hdy hdm hb1 hb2
    rw [hdy, hdm]
    refine ⟨to_date_str ⟨y, m, dd⟩, rfl, ⟨y, m, dd⟩, ?_, rfl, rfl⟩
    exact from_to_date_str hy1 hy2 hm1 hm2 hb1 hb2

/-- **C8.** Every key of the month index parses to a date inside the
requested (year, month), and no key maps to an empty bucket. -/
theorem C8_keys_in_month (y m : Nat) (ue ics : List Occ) (rts : List Routine)
    (mp : List (String × List Occ)) (hy1 : 1 ≤ y) (hy2 : y ≤ 9999)
    (hm1 : 1 ≤ m) (hm2 : m ≤ 12)
    (hmp : events_map_for_month y m ue ics rts = some mp) :
    ∀ p ∈ mp,
      (∃ d : Date, from_date_str p.1 = some d ∧ d.year = y ∧ d.month = m) ∧
      p.2 ≠ [] := by
  cases hr : expand_routines_for_month y m rts with
  | none => simp [events_map_for_month, hr] at hmp
  | some rocc =>
    simp only [events_map_for_month, hr, Option.some.injEq] at hmp
    subst hmp
    intro p hp
    obtain ⟨q, hq, rfl⟩ := List.mem_map.mp hp
    obtain ⟨hne, hall⟩ :=
      groupByDate_inv _ _
        (collected_prop y m ue ics rts rocc hy1 hy2 hm1 hm2 hr) q hq
    constructor
    · obtain ⟨o, ho⟩ := List.exists_mem_of_ne_nil q.2 hne
      have h1 := (hall o ho).1
      obtain ⟨s, hs, d, hparse, hdy, hdm⟩ := (hall o ho).2
      rw [h1] at hs
      have hsq : q.1 = s := Option.some.inj hs
      refine ⟨d, ?_, hdy, hdm⟩
      show from_date_str q.1 = some d
      rw [hsq]
      exact hparse
    · show sortOccs q.2 ≠ []
      have hlen : (sortOccs q.2).length = q.2.length := by
        unfold sortOccs
        exact List.length_insertionSort _ _
      intro hcon
      refine hne (List.length_eq_zero.mp ?_)
      rw [← hlen, hcon]
      rfl

/-- **C8 witness.** A single user event on 2024-01-05 for (2024, 1): the
key parses into January 2024 and the bucket is nonempty. -/
theorem C8_witness :
    (∃ d : Date, from_date_str ("2024-01-05", [exAllDayA]).1 = some d ∧
      d.year = 2024 ∧ d.month = 1) ∧ ("2024-01-05", [exAllDayA]).2 ≠ [] :=
  C8_keys_in_month 2024 1 [exAllDayA] [] [] [("2024-01-05", [exAllDayA])]
    (by decide) (by decide) (by decide) (by decide) (by decide)
    ("2024-01-05", [exAllDayA]) (by decide)

theorem inMonth_parseOk {y m : Nat} {x : Occ} (h : inMonth y m x = true) :
    (x.date.bind from_date_str).isSome = true := by
  obtain ⟨s, hs, d, hp, _, _⟩ := inMonth_spec h
  rw [hs]
  simp [hp]

theorem filter_inMonth_parseOk (y m : Nat) (l : List Occ) :
    (l.filter (fun x => (x.date.bind from_date_str).isSome)).filter (inMonth y m)
      = l.filter (inMonth y m) := by
  rw [List.filter_filter]
  apply List.filter_congr
  intro x hx
  cases hIM : inMonth y m x
  · simp
  · simp [inMonth_parseOk hIM]

/-- **C10.** A stored user event or cached feed record whose `date` is
absent or does not parse as `YYYY-MM-DD` is silently excluded: dropping
all such records does not change the month index at all, and no
malformed record ever appears in any bucket. -/
theorem C10_malformed_records_skipped (y m : Nat) (ue ics : List Occ)
    (rts : List Routine) (e : Occ) (hy1 : 1 ≤ y) (hy2 : y ≤ 9999)
    (hm1 : 1 ≤ m) (hm2 : m ≤ 12) (he : e.date.bind from_date_str = none) :
    events_map_for_month y m ue ics rts =
      events_map_for_month y m
        (ue.filter (fun x => (x.date.bind from_date_str).isSome))
        (ics.filter (fun x => (x.date.bind from_date_str).isSome)) rts ∧
    (∀ mp, events_map_for_month y m ue ics rts = some mp →
      ∀ p ∈ mp, e ∉ p.2) := by
  constructor
  · cases hr : expand_routines_for_month y m rts with
    | none => simp [events_map_for_month, hr]
    | some rocc =>
      simp only [events_map_for_month, hr]
      rw [filter_inMonth_parseOk y m ue, filter_inMonth_parseOk y m ics]
  · intro mp hmp p hp hin
    cases hr : expand_routines_for_month y m rts with
    | none => simp [events_map_for_month, hr] at hmp
    | some rocc =>
      simp only [events_map_for_month, hr, Option.some.injEq] at hmp
      subst hmp
      obtain ⟨q, hq, rfl⟩ := List.mem_map.mp hp
      obtain ⟨-, hall⟩ :=
        groupByDate_inv _ _
          (collected_prop y m ue ics rts rocc hy1 hy2 hm1 hm2 hr) q hq
      have hin' : e ∈ q.2 := by
        have hmem : e ∈ sortOccs q.2 := hin
        unfold sortOccs at hmem
        exact (List.mem_insertionSort _).mp hmem
      obtain ⟨s, hs, d, hparse, -, -⟩ := (hall e hin').2
      rw [hs] at he
      simp [hparse] at he

/-- **C10 witness.** The statement at a user list holding one well-formed
and one malformed record (date `"05/01/2024"`): the index equals the one
built from the well-formed record alone, and the malformed record is in
no bucket. -/
theorem C10_witness :
    (events_map_for_month 2024 1 [exAllDayA, exBadDate] [] [] =
      events_map_for_month 2024 1
        ([exAllDayA, exBadDate].filter
          (fun x => (x.date.bind from_date_str).isSome))
        (([] : List Occ).filter
          (fun x => (x.date.bind from_date_str).isSome)) [] ∧
    (∀ mp, events_map_for_month 2024 1 [exAllDayA, exBadDate] [] [] = some mp →
      ∀ p ∈ mp, exBadDate ∉ p.2)) :=
  C10_malformed_records_skipped 2024 1 [exAllDayA, exBadDate] [] [] exBadDate
    (by decide) (by decide) (by decide) (by decide) (by decide)

/-!
## Lemmas about routine occurrence ids
-/

theorem colon_split {v1 v2 : List Char} (h1 : ':' ∉ v1) (h2 : ':' ∉ v2) :
    ∀ {u1 u2 : List Char}, u1 ++ ':' :: v1 = u2 ++ ':' :: v2 →
      u1 = u2 ∧ v1 = v2 := by
  intro u1
  induction u1 with
  | nil =>
    intro u2 h
    cases u2 with
    | nil => simpa using h
    | cons c u2' =>
      simp only [List.nil_append, List.cons_append, List.cons.injEq] at h
      obtain ⟨hc, hv⟩ := h
      exact absurd (hv ▸ List.mem_append_right u2' (List.mem_cons_self ':' v2)) h1
  | cons c u1' ih =>
    intro u2 h
    cases u2 with
    | nil =>
      simp only [List.cons_append, List.nil_append, List.cons.injEq] at h
      obtain ⟨hc, hv⟩ := h
      exact absurd (hv.symm ▸ List.mem_append_right u1' (List.mem_cons_self ':' v1)) h2
    | cons c2 u2' =>
      simp only [List.cons_append, List.cons.injEq] at h
      obtain ⟨hc, hv⟩ := h
      obtain ⟨hu, hvv⟩ := ih hv
      exact ⟨by rw [hc, hu], hvv⟩

theorem colon_not_mem_dateChars (d : Date) : ':' ∉ dateChars d := by
  intro h
  simp only [dateChars, List.mem_cons, List.not_mem_nil, or_false] at h
  rcases h with h | h | h | h | h | h | h | h | h | h <;>
    first
      | exact digitChar_ne_colon _ h.symm
      | exact absurd h (by decide)

theorem routine_id_decomp (r : Routine) (d : Date) :
    (mkRoutineOcc r d).id.data =
      ("routine:" ++ r.id).data ++ ':' :: (to_date_str d).data := by
  show ("routine:" ++ r.id ++ ":" ++ to_date_str d).data = _
  simp only [String.data_append, List.append_assoc]
  rfl

theorem string_of_data_eq {s t : String} (h : s.data = t.data) : s = t := by
  cases s
  cases t
  exact congrArg String.mk h

theorem routineOccId_inj {r1 r2 : Routine} {d1 d2 : Date}
    (h : (mkRoutineOcc r1 d1).id = (mkRoutineOcc r2 d2).id) :
    r1.id = r2.id ∧ to_date_str d1 = to_date_str d2 := by
  have hd := congrArg String.data h
  rw [routine_id_decomp, routine_id_decomp] at hd
  have hts1 : ':' ∉ (to_date_str d1).data := colon_not_mem_dateChars d1
  have hts2 : ':' ∉ (to_date_str d2).data := colon_not_mem_dateChars d2
  obtain ⟨hu, hv⟩ := colon_split hts1 hts2 hd
  constructor
  · rw [String.data_append, String.data_append] at hu
    exact string_of_data_eq (List.append_cancel_left hu)
  · exact string_of_data_eq hv

theorem routineOccId_startsWith (r : Routine) (d : Date) :
    pyStartsWith (mkRoutineOcc r d).id "routine:" = true := by
  unfold pyStartsWith
  rw [List.isPrefixOf_iff_prefix]
  refine ⟨r.id.data ++ ':' :: (to_date_str d).data, ?_⟩
  rw [routine_id_decomp r d, String.data_append, List.append_assoc]

theorem nodup_filterMap_of_mem {α β : Type} (l : List α) (f : α → Option β)
    (hl : l.Nodup)
    (hinj : ∀ a ∈ l, ∀ a' ∈ l, ∀ b, f a = some b → f a' = some b → a = a') :
    (l.filterMap f).Nodup := by
  induction l with
  | nil => exact List.nodup_nil
  | cons x xs ih =>
    cases hfx : f x with
    | none =>
      rw [List.filterMap_cons_none hfx]
      exact ih (List.nodup_cons.mp hl).2
        (fun a ha a' ha' b h1 h2 =>
          hinj a (List.mem_cons_of_mem _ ha) a' (List.mem_cons_of_mem _ ha') b h1 h2)
    | some b =>
      rw [List.filterMap_cons_some hfx]
      refine List.nodup_cons.mpr ⟨?_, ?_⟩
      · intro hb
        obtain ⟨a', ha', hfa'⟩ := List.mem_filterMap.mp hb
        have hxa : x = a' :=
          hinj x (List.mem_cons_self _ _) a' (List.mem_cons_of_mem _ ha') b hfx hfa'
        exact (List.nodup_cons.mp hl).1 (hxa ▸ ha')
      · exact ih (List.nodup_cons.mp hl).2
          (fun a ha a' ha' b' h1 h2 =>
            hinj a (List.mem_cons_of_mem _ ha) a' (List.mem_cons_of_mem _ ha') b' h1 h2)

theorem expandRoutine_ids_nodup {r : Routine} {y m : Nat} {l : List Occ}
    (hl : expandRoutine r y m = some l) : (l.map Occ.id).Nodup := by
  unfold expandRoutine at hl
  by_cases hw : r.rtype = "weekly"
  · rw [if_pos hw] at hl
    cases hsd : r.start_date with
    | none =>
      simp only [hsd] at hl
      obtain rfl := Option.some.inj hl
      exact List.nodup_nil
    | some ss =>
      simp only [hsd] at hl
      cases hps : from_date_str ss with
      | none =>
        simp only [hps] at hl
        obtain rfl := Option.some.inj hl
        exact List.nodup_nil
      | some start =>
        simp only [hps] at hl
        cases hre : resolveEnd r.end_date with
        | none => simp only [hre] at hl; exact Option.noConfusion hl
        | some endD =>
          simp only [hre, Option.some.injEq] at hl
          subst hl
          rw [List.map_filterMap]
          refine nodup_filterMap_of_mem _ _ (nodup_datesOfMonth y m) ?_
          intro a ha a' ha' b hb hb'
          by_cases hca : routineCond r.days_of_week start endD a = true
          · by_cases hca' : routineCond r.days_of_week start endD a' = true
            · rw [if_pos hca] at hb
              rw [if_pos hca'] at hb'
              simp only [Option.map_some'] at hb hb'
              have hid : (mkRoutineOcc r a).id = (mkRoutineOcc r a').id := by
                rw [Option.some.inj hb, Option.some.inj hb']
              have hts := (routineOccId_inj hid).2
              obtain ⟨hay, ham, hc1, hc2⟩ := mem_datesOfMonth.mp ha
              obtain ⟨hay', ham', hc1', hc2'⟩ := mem_datesOfMonth.mp ha'
              rcases a with ⟨ay, am, ad⟩
              rcases a' with ⟨ay', am', ad'⟩
              simp only at hay ham hc1 hc2 hay' ham' hc1' hc2'
              rw [hay, ham] at hts ⊢
              rw [hay', ham'] at hts ⊢
              have hdd : ad = ad' := by
                refine to_date_str_inj_day ?_ ?_ hts
                · have := monthrange_le y m; omega
                · have := monthrange_le y m; omega
              rw [hdd]
            · rw [if_neg hca'] at hb'
              exact Option.noConfusion hb'
          · rw [if_neg hca] at hb
            exact Option.noConfusion hb
  · rw [if_neg hw] at hl
    obtain rfl := Option.some.inj hl
    exact List.nodup_nil

theorem expand_ids_nodup {y m : Nat} {rts : List Routine} {rocc : List Occ}
    (hrts : (rts.map Routine.id).Nodup)
    (hr : expand_routines_for_month y m rts = some rocc) :
    (rocc.map Occ.id).Nodup := by
  induction rts generalizing rocc with
  | nil =>
    unfold expand_routines_for_month at hr
    obtain rfl := Option.some.inj hr
    exact List.nodup_nil
  | cons r rest ih =>
    unfold expand_routines_for_month at hr
    cases h1 : expandRoutine r y m with
    | none => simp only [h1] at hr; exact Option.noConfusion hr
    | some l =>
      simp only [h1] at hr
      cases h2 : expand_routines_for_month y m rest with
      | none => simp only [h2] at hr; exact Option.noConfusion hr
      | some l' =>
        simp only [h2, Option.some.injEq] at hr
        subst hr
        rw [List.map_append]
        have hcons := List.nodup_cons.mp (by simpa using hrts :
          (r.id :: rest.map Routine.id).Nodup)
        refine List.Nodup.append (expandRoutine_ids_nodup h1) (ih hcons.2 h2) ?_
        intro a hal hal'
        obtain ⟨o, hol, rfl⟩ := List.mem_map.mp hal
        obtain ⟨o', hol', hoid⟩ := List.mem_map.mp hal'
        obtain ⟨d, hd, rfl⟩ := expandRoutine_mem h1 hol
        obtain ⟨r', hr', d', hd', rfl⟩ := mem_expand_routines h2 hol'
        have hrid := (routineOccId_inj hoid).1
        exact hcons.1 (hrid ▸ List.mem_map_of_mem Routine.id hr')

/-!
## The flattened month index is a permutation of the collected events
-/

theorem sdA_perm (m0 : List (String × List Occ)) (ds : String) (e : Occ) :
    ((setdefaultAppend m0 ds e).map Prod.snd).flatten ~
      (m0.map Prod.snd).flatten ++ [e] := by
  induction m0 with
  | nil => simp [setdefaultAppend]
  | cons q rest ih =>
    rcases q with ⟨k', l⟩
    unfold setdefaultAppend
    by_cases hkk : k' = ds
    · rw [if_pos hkk]
      simp only [List.map_cons, List.flatten_cons]
      calc (l ++ [e]) ++ (rest.map Prod.snd).flatten
          = l ++ ([e] ++ (rest.map Prod.snd).flatten) := List.append_assoc _ _ _
        _ ~ l ++ ((rest.map Prod.snd).flatten ++ [e]) :=
            List.Perm.append_left l List.perm_append_comm
        _ = (l ++ (rest.map Prod.snd).flatten) ++ [e] :=
            (List.append_assoc _ _ _).symm
    · rw [if_neg hkk]
      simp only [List.map_cons, List.flatten_cons]
      calc l ++ ((setdefaultAppend rest ds e).map Prod.snd).flatten
          ~ l ++ ((rest.map Prod.snd).flatten ++ [e]) :=
            List.Perm.append_left l ih
        _ = (l ++ (rest.map Prod.snd).flatten) ++ [e] :=
            (List.append_assoc _ _ _).symm

theorem foldl_groupStep_perm :
    ∀ (es : List Occ) (m0 : List (String × List Occ)),
      (∀ e ∈ es, ∃ ds, e.date = some ds ∧ ds ≠ "") →
      ((es.foldl groupStep m0).map Prod.snd).flatten ~
        (m0.map Prod.snd).flatten ++ es := by
  intro es
  induction es with
  | nil => intro m0 _; simp
  | cons e es ih =>
    intro m0 hes
    obtain ⟨ds, hd, hne⟩ := hes e (List.mem_cons_self _ _)
    rw [List.foldl_cons]
    refine (ih (groupStep m0 e)
      (fun x hx => hes x (List.mem_cons_of_mem _ hx))).trans ?_
    rw [groupStep_some hd hne]
    refine (List.Perm.append_right es (sdA_perm m0 ds e)).trans ?_
    rw [List.append_assoc]
    exact List.Perm.refl _

theorem groupByDate_perm (es : List Occ)
    (hes : ∀ e ∈ es, ∃ ds, e.date = some ds ∧ ds ≠ "") :
    ((groupByDate es).map Prod.snd).flatten ~ es := by
  have h := foldl_groupStep_perm es [] hes
  simpa [groupByDate] using h

theorem from_date_str_empty : from_date_str "" = none := by decide

theorem to_date_str_ne_empty (d : Date) : to_date_str d ≠ "" := by
  intro h
  have h2 : dateChars d = [] := congrArg String.data h
  simp [dateChars] at h2

theorem collected_date_nonempty (y m : Nat) (ue ics : List Occ)
    (rts : List Routine) (rocc : List Occ)
    (hr : expand_routines_for_month y m rts = some rocc) :
    ∀ e ∈ ue.filter (inMonth y m) ++ ics.filter (inMonth y m) ++ rocc,
      ∃ ds, e.date = some ds ∧ ds ≠ "" := by
  intro e he
  rcases List.mem_append.mp he with h12 | h3
  · have hIM : inMonth y m e = true := by
      rcases List.mem_append.mp h12 with h1 | h2
      · exact List.of_mem_filter h1
      · exact List.of_mem_filter h2
    obtain ⟨s, hs, d, hp, -, -⟩ := inMonth_spec hIM
    refine ⟨s, hs, ?_⟩
    intro hcon
    rw [hcon, from_date_str_empty] at hp
    exact Option.noConfusion hp
  · obtain ⟨r, -, d, -, rfl⟩ := mem_expand_routines hr h3
    exact ⟨to_date_str d, rfl, to_date_str_ne_empty d⟩

/-- **C7 (counterexample).** A feed whose two components share uid `"x"`
yields two occurrences with the identical id `"ics:0:x"`; the month index
built from that snapshot returns both, so the ids of the occurrences
returned by a single aggregator call are not pairwise distinct. -/
theorem C7_counterexample :
    ¬ (aggIds ((events_map_for_month 2024 1 []
        (fetch_all ["http://a"] exNetDup ⟨2024, 1, 9⟩).events []).getD [])).Nodup := by
  decide

/-- **C7 (amended).** The ids of all occurrences returned by one
aggregator call are pairwise distinct provided: the user events' ids are
pairwise distinct, the feed snapshot's ids are pairwise distinct, no user
id equals a feed id, the routines' ids are pairwise distinct, and no user
or feed id starts with `"routine:"`. -/
theorem C7_ids_distinct (y m : Nat) (ue ics : List Occ) (rts : List Routine)
    (mp : List (String × List Occ))
    (hue : (ue.map Occ.id).Nodup)
    (hics : (ics.map Occ.id).Nodup)
    (hdisj : ∀ a ∈ ue.map Occ.id, a ∉ ics.map Occ.id)
    (hrts : (rts.map Routine.id).Nodup)
    (hpreU : ∀ a ∈ ue.map Occ.id, pyStartsWith a "routine:" = false)
    (hpreI : ∀ a ∈ ics.map Occ.id, pyStartsWith a "routine:" = false)
    (hmp : events_map_for_month y m ue ics rts = some mp) :
    (aggIds mp).Nodup := by
  cases hr : expand_routines_for_month y m rts with
  | none => simp [events_map_for_month, hr] at hmp
  | some rocc =>
    simp only [events_map_for_month, hr, Option.some.injEq] at hmp
    subst hmp
    have hflat : ((((groupByDate
        (ue.filter (inMonth y m) ++ ics.filter (inMonth y m) ++ rocc)).map
          (fun p => (p.1, sortOccs p.2))).map Prod.snd).flatten) ~
        (ue.filter (inMonth y m) ++ ics.filter (inMonth y m) ++ rocc) := by
      rw [List.map_map, ← List.flatMap_def]
      have hstep1 : (groupByDate
          (ue.filter (inMonth y m) ++ ics.filter (inMonth y m) ++ rocc)).flatMap
            (Prod.snd ∘ fun p => (p.1, sortOccs p.2)) ~
          (groupByDate
            (ue.filter (inMonth y m) ++ ics.filter (inMonth y m) ++ rocc)).flatMap
              Prod.snd :=
        List.Perm.flatMap_left _ (fun p _ => List.perm_insertionSort occLeP p.2)
      refine hstep1.trans ?_
      rw [List.flatMap_def]
      exact groupByDate_perm _
        (collected_date_nonempty y m ue ics rts rocc hr)
    have hperm : aggIds ((groupByDate
        (ue.filter (inMonth y m) ++ ics.filter (inMonth y m) ++ rocc)).map
          (fun p => (p.1, sortOccs p.2))) ~
        (ue.filter (inMonth y m) ++ ics.filter (inMonth y m) ++ rocc).map
          Occ.id :=
      List.Perm.map Occ.id hflat
    refine hperm.nodup_iff.mpr ?_
    rw [List.map_append, List.map_append]
    have hUF : ((ue.filter (inMonth y m)).map Occ.id).Nodup :=
      List.Nodup.sublist ((List.filter_sublist _).map Occ.id) hue
    have hIF : ((ics.filter (inMonth y m)).map Occ.id).Nodup :=
      List.Nodup.sublist ((List.filter_sublist _).map Occ.id) hics
    have hsubU : ∀ a ∈ (ue.filter (inMonth y m)).map Occ.id, a ∈ ue.map Occ.id :=
      fun a ha => ((List.filter_sublist _).map Occ.id).subset ha
    have hsubI : ∀ a ∈ (ics.filter (inMonth y m)).map Occ.id, a ∈ ics.map Occ.id :=
      fun a ha => ((List.filter_sublist _).map Occ.id).subset ha
    have hRocc : ∀ a ∈ rocc.map Occ.id, pyStartsWith a "routine:" = true := by
      intro a ha
      obtain ⟨o, ho, rfl⟩ := List.mem_map.mp ha
      obtain ⟨r, -, d, -, rfl⟩ := mem_expand_routines hr ho
      exact routineOccId_startsWith r d
    refine List.Nodup.append (List.Nodup.append hUF hIF ?_)
      (expand_ids_nodup hrts hr) ?_
    · intro a haU haI
      exact hdisj a (hsubU a haU) (hsubI a haI)
    · intro a ha12 haR
      have hfalse : pyStartsWith a "routine:" = false := by
        rcases List.mem_append.mp ha12 with h1 | h2
        · exact hpreU a (hsubU a h1)
        · exact hpreI a (hsubI a h2)
      rw [hRocc a haR] at hfalse
      exact Bool.noConfusion hfalse

/-- **C7 witness.** A concrete call mixing one user event, an empty feed
snapshot and two routines with distinct ids: all returned ids are
pairwise distinct. -/
theorem C7_witness :
    (aggIds ((events_map_for_month 2024 1 [exAllDayA] []
        [exGym, exMonday]).getD [])).Nodup :=
  C7_ids_distinct 2024 1 [exAllDayA] [] [exGym, exMonday]
    ((events_map_for_month 2024 1 [exAllDayA] [] [exGym, exMonday]).getD [])
    (by decide) (by decide) (by decide) (by decide) (by decide) (by decide)
    (by decide)

/-!
## Validation examples

Concrete evaluations checking the embedding against the behaviour of the
Python source (and of the spec's §8 scenarios).
-/

example : weekday ⟨2024, 1, 1⟩ = 0 := by decide
example : weekday ⟨2000, 1, 1⟩ = 5 := by decide
example : weekday ⟨1970, 1, 1⟩ = 3 := by decide
example : to_date_str ⟨2024, 1, 5⟩ = "2024-01-05" := by decide
example : from_date_str "2024-01-05" = some ⟨2024, 1, 5⟩ := by decide
example : from_date_str "2024-1-5" = some ⟨2024, 1, 5⟩ := by decide
example : from_date_str "2024-02-30" = none := by decide
-- strptime %Y requires exactly four year digits
example : from_date_str "999-01-05" = none := by decide
example : from_date_str "0000-01-05" = none := by decide
example : from_date_str "garbage" = none := by decide
example : monthrange 2024 2 = 29 := by decide

-- the spec's Gym scenario: occurrences on every Monday of January 2024
example : (expand_routines_for_month 2024 1 [exGym]).map (fun l => l.map Occ.date) =
    some [some "2024-01-01", some "2024-01-08", some "2024-01-15",
          some "2024-01-22", some "2024-01-29"] := by decide
example : (expand_routines_for_month 2024 1 [exGym]).map (fun l => l.map Occ.time) =
    some [some (7, 0), some (7, 0), some (7, 0), some (7, 0), some (7, 0)] := by
  decide

-- the spec's two-user-event scenario: "B" at 14:00 sorts before all-day "A"
-- (14:00 has key 840 < 999; only times after 16:39 violate "all-day last")
example :
    (events_map_for_month 2024 1
        [{ id := "user:1", title := some "A", date := some "2024-01-05",
           time := none, source := "user", link := none, feed := none,
           color := "user" },
         { id := "user:2", title := some "B", date := some "2024-01-05",
           time := some (14, 0), source := "user", link := none, feed := none,
           color := "user" }] [] []).map (fun mp => mp.map (fun p => p.2.map Occ.title)) =
      some [[some "B", some "A"]] := by decide

example : searchUrl "see https://example.com/x for info".data =
    some "https://example.com/x" := by decide
example : add_source ["https://x/cal.ics"] "https://x/cal.ics" =
    (true, "Fonte ICS adicionada", ["https://x/cal.ics"]) := by decide
